import Mathlib

/-!
Verification of `mpnum/factory.py` (factory functions for matrix product
arrays).  The numerical code works with complex floating-point arrays; we
embed it over exact complex rationals `Cx` so that every definition is
computable.  Randomness (numpy's `randn`) is modelled by an abstract
stream of rational draws carried in a `RandState`; the Gaussian
distribution itself is irrelevant to the claims, only the consumption and
determinism of the source matter.
-/

/-- Complex numbers with rational real and imaginary part: the exact
counterpart of numpy's complex scalars used throughout `factory.py`. -/
structure Cx where
  re : ℚ
  im : ℚ
deriving DecidableEq, Repr

namespace Cx

theorem ext_iff {a b : Cx} : a = b ↔ a.re = b.re ∧ a.im = b.im := by
  constructor
  · rintro rfl; exact ⟨rfl, rfl⟩
  · rintro ⟨h1, h2⟩; cases a; cases b; simp_all

instance : Zero Cx := ⟨⟨0, 0⟩⟩
instance : One Cx := ⟨⟨1, 0⟩⟩
instance : Add Cx := ⟨fun a b => ⟨a.re + b.re, a.im + b.im⟩⟩
instance : Neg Cx := ⟨fun a => ⟨-a.re, -a.im⟩⟩
instance : Sub Cx := ⟨fun a b => ⟨a.re - b.re, a.im - b.im⟩⟩
instance : Mul Cx := ⟨fun a b => ⟨a.re * b.re - a.im * b.im, a.re * b.im + a.im * b.re⟩⟩

@[simp] theorem zero_re : (0 : Cx).re = 0 := rfl
@[simp] theorem zero_im : (0 : Cx).im = 0 := rfl
@[simp] theorem one_re : (1 : Cx).re = 1 := rfl
@[simp] theorem one_im : (1 : Cx).im = 0 := rfl
@[simp] theorem add_re (a b : Cx) : (a + b).re = a.re + b.re := rfl
@[simp] theorem add_im (a b : Cx) : (a + b).im = a.im + b.im := rfl
@[simp] theorem neg_re (a : Cx) : (-a).re = -a.re := rfl
@[simp] theorem neg_im (a : Cx) : (-a).im = -a.im := rfl
@[simp] theorem sub_re (a b : Cx) : (a - b).re = a.re - b.re := rfl
@[simp] theorem sub_im (a b : Cx) : (a - b).im = a.im - b.im := rfl
@[simp] theorem mul_re (a b : Cx) : (a * b).re = a.re * b.re - a.im * b.im := rfl
@[simp] theorem mul_im (a b : Cx) : (a * b).im = a.re * b.im + a.im * b.re := rfl

/-- Squared modulus (numpy: `abs(z)**2 = conj(z)*z`), a rational. -/
def normSq (a : Cx) : ℚ := a.re * a.re + a.im * a.im

/-- Complex conjugate (numpy: `np.conj`). -/
def conj (a : Cx) : Cx := ⟨a.re, -a.im⟩

@[simp] theorem conj_re (a : Cx) : (conj a).re = a.re := rfl
@[simp] theorem conj_im (a : Cx) : (conj a).im = -a.im := rfl

instance : Inv Cx := ⟨fun a => ⟨a.re / normSq a, -a.im / normSq a⟩⟩
instance : Div Cx := ⟨fun a b => a * b⁻¹⟩

@[simp] theorem inv_re (a : Cx) : a⁻¹.re = a.re / normSq a := rfl
@[simp] theorem inv_im (a : Cx) : a⁻¹.im = -a.im / normSq a := rfl

theorem normSq_nonneg (a : Cx) : 0 ≤ normSq a := by
  have h1 : 0 ≤ a.re * a.re := mul_self_nonneg _
  have h2 : 0 ≤ a.im * a.im := mul_self_nonneg _
  simpa [normSq] using add_nonneg h1 h2

theorem normSq_eq_zero_iff {a : Cx} : normSq a = 0 ↔ a = 0 := by
  constructor
  · intro h
    have h1 : 0 ≤ a.re * a.re := mul_self_nonneg _
    have h2 : 0 ≤ a.im * a.im := mul_self_nonneg _
    simp only [normSq] at h
    have hre : a.re * a.re = 0 := by linarith
    have him : a.im * a.im = 0 := by linarith
    exact ext_iff.mpr ⟨mul_self_eq_zero.mp hre, mul_self_eq_zero.mp him⟩
  · rintro rfl; simp [normSq]

instance addCommGroup : AddCommGroup Cx := by
  refine
  { add := (· + ·)
    zero := (0 : Cx)
    sub := (· - ·)
    neg := Neg.neg
    nsmul := @nsmulRec Cx ⟨0⟩ ⟨(· + ·)⟩
    zsmul := @zsmulRec Cx ⟨0⟩ ⟨(· + ·)⟩ ⟨Neg.neg⟩ (@nsmulRec Cx ⟨0⟩ ⟨(· + ·)⟩)
    add_assoc := ?_
    zero_add := ?_
    add_zero := ?_
    sub_eq_add_neg := ?_
    neg_add_cancel := ?_
    add_comm := ?_ } <;>
  (intros; apply ext_iff.mpr; constructor) <;> simp <;> ring

instance commRing : CommRing Cx := by
  refine
  { Cx.addCommGroup with
    mul := (· * ·)
    one := (1 : Cx)
    npow := @npowRec Cx ⟨1⟩ ⟨(· * ·)⟩
    add_comm := ?_
    left_distrib := ?_
    right_distrib := ?_
    zero_mul := ?_
    mul_zero := ?_
    mul_assoc := ?_
    one_mul := ?_
    mul_one := ?_
    mul_comm := ?_ } <;>
  (intros; apply ext_iff.mpr; constructor) <;> simp <;> ring

instance : Nontrivial Cx := ⟨⟨0, 1, by intro h; simpa using (ext_iff.mp h).1⟩⟩

instance field : Field Cx where
  inv := Inv.inv
  div := (· / ·)
  div_eq_mul_inv a b := rfl
  mul_inv_cancel a ha := by
    have hn : normSq a ≠ 0 := fun h => ha (normSq_eq_zero_iff.mp h)
    apply ext_iff.mpr
    constructor
    · show a.re * (a.re / normSq a) - a.im * (-a.im / normSq a) = 1
      field_simp
      simp [normSq] at hn ⊢
    · show a.re * (-a.im / normSq a) + a.im * (a.re / normSq a) = 0
      field_simp
      ring
  inv_zero := by apply ext_iff.mpr; constructor <;> simp
  nnqsmul := _
  qsmul := _

theorem conj_add (a b : Cx) : conj (a + b) = conj a + conj b := by
  apply ext_iff.mpr
  constructor
  · simp
  · simp
    ring

theorem conj_mul (a b : Cx) : conj (a * b) = conj a * conj b := by
  apply ext_iff.mpr
  constructor
  · simp
  · simp
    ring

@[simp] theorem conj_zero : conj (0 : Cx) = 0 := by
  apply ext_iff.mpr; constructor <;> simp

theorem conj_mul_self (a : Cx) : conj a * a = ⟨normSq a, 0⟩ := by
  apply ext_iff.mpr
  constructor
  · simp [normSq]
  · simp
    ring

end Cx

/-! ## The random source and dense tensors -/

/-- Abstract model of a `numpy.random.RandomState`: an infinite stream of
standard-normal draws together with a cursor.  Drawing advances the
cursor; the distribution itself is abstracted away. -/
structure RandState where
  stream : Nat → ℚ
  pos : Nat

/-- `randstate.randn(*shape)`: draw `shape.prod` values from the stream and
advance the cursor. -/
def RandState.randn (rs : RandState) (shape : List Nat) : List ℚ × RandState :=
  ((List.range shape.prod).map (fun i => rs.stream (rs.pos + i)),
   ⟨rs.stream, rs.pos + shape.prod⟩)

/-- A dense numpy array: a shape together with the flat entries in
row-major (C) order. -/
structure Tensor where
  shape : List Nat
  data : List Cx
deriving DecidableEq, Repr

/-- `_zrandn` applied to an already-resolved random source: one `randn`
call for the real parts followed by one for the imaginary parts,
combined as `re + 1j*im`. -/
def zrandnFrom (shape : List Nat) (rs : RandState) : Tensor × RandState :=
  let p1 := rs.randn shape
  let p2 := p1.2.randn shape
  (⟨shape, List.zipWith (fun a b => ⟨a, b⟩) p1.1 p2.1⟩, p2.2)

/-- `_zrandn(shape, randstate)` from `factory.py`: resolve
`randstate if randstate is not None else np.random` (the ambient global
source `npRandom`), then draw. -/
def _zrandn (shape : List Nat) (randstate : Option RandState)
    (npRandom : RandState) : Tensor × RandState :=
  zrandnFrom shape (randstate.getD npRandom)

namespace np

/-- `np.zeros(shape)`: the all-zero tensor of a given shape. -/
def zeros (shape : List Nat) : Tensor := ⟨shape, List.replicate shape.prod 0⟩

/-- `np.eye(d)`: the `d × d` identity matrix as a tensor. -/
def eye (d : Nat) : Tensor :=
  ⟨[d, d], (List.range (d * d)).map (fun k => if k / d = k % d then (1 : Cx) else 0)⟩

end np

/-- Sum of the squared moduli of all entries: `np.vdot(psi, psi)`
(a real number, represented exactly as a rational). -/
def Tensor.sumNormSq (t : Tensor) : ℚ := (t.data.map Cx.normSq).sum

/-! ## Matrix view of a square tensor (global index ordering) -/

/-- Read a flat row-major tensor as an `n × n` matrix. -/
def matOf (n : Nat) (t : Tensor) : Nat → Nat → Cx :=
  fun i j => t.data.getD (i * n + j) 0

/-- Flatten an `n × n` matrix to row-major data (numpy C order). -/
def matToData (n : Nat) (M : Nat → Nat → Cx) : List Cx :=
  (List.range (n * n)).map (fun k => M (k / n) (k % n))

/-- `np.conj(M.T)`. -/
def conjTrans (M : Nat → Nat → Cx) : Nat → Nat → Cx := fun i j => Cx.conj (M j i)

/-- `A.dot(B)` for `n × n` matrices. -/
def matMul (n : Nat) (A B : Nat → Nat → Cx) : Nat → Nat → Cx :=
  fun i j => ∑ k ∈ Finset.range n, A i k * B k j

/-- `np.trace(M)` for an `n × n` matrix. -/
def matTrace (n : Nat) (M : Nat → Nat → Cx) : Cx := ∑ i ∈ Finset.range n, M i i

/-! ## The factory functions of `factory.py` -/

/-- The result of `random_vec`: numpy stores `psi / sqrt(vdot(psi, psi))`;
to stay in exact arithmetic we keep the raw draw together with the square
`divSq` of the normalizing divisor (`divSq = vdot(psi, psi)`), so the
stored value denotes `raw / sqrt divSq`. -/
structure NormalizedVec where
  raw : Tensor
  divSq : ℚ
deriving DecidableEq, Repr

/-- Shape of the denoted array (dividing by a scalar keeps the shape). -/
def NormalizedVec.shape (v : NormalizedVec) : List Nat := v.raw.shape

/-- Squared Euclidean norm of the denoted array `raw / sqrt divSq`:
each entry's squared modulus is divided by `divSq`. -/
def NormalizedVec.normSq (v : NormalizedVec) : ℚ := v.raw.sumNormSq / v.divSq

/-- `random_vec(sites, ldim, randstate)`: draw a tensor of shape
`(ldim,) * sites` and divide it by its Euclidean norm. -/
def random_vec (sites ldim : Nat) (randstate : Option RandState)
    (npRandom : RandState) : NormalizedVec :=
  let psi := (_zrandn (List.replicate sites ldim) randstate npRandom).1
  ⟨psi, psi.sumNormSq⟩

/-- `random_op(sites, ldim, randstate)`: the raw draw of shape
`(ldim, ldim) * sites` (that tuple is `2 * sites` copies of `ldim`),
with no normalization. -/
def random_op (sites ldim : Nat) (randstate : Option RandState)
    (npRandom : RandState) : Tensor :=
  (_zrandn (List.replicate (2 * sites) ldim) randstate npRandom).1

/-- The local `mat` of `random_state`: the raw draw of shape
`(ldim**sites, ldim**sites)`, viewed as a square matrix. -/
def rsDraw (sites ldim : Nat) (randstate : Option RandState)
    (npRandom : RandState) : Nat → Nat → Cx :=
  matOf (ldim ^ sites)
    ((_zrandn [ldim ^ sites, ldim ^ sites] randstate npRandom).1)

/-- The local `rho` of `random_state` before trace normalization:
`np.conj(mat.T).dot(mat)`. -/
def rsRho (sites ldim : Nat) (randstate : Option RandState)
    (npRandom : RandState) : Nat → Nat → Cx :=
  matMul (ldim ^ sites) (conjTrans (rsDraw sites ldim randstate npRandom))
    (rsDraw sites ldim randstate npRandom)

/-- `random_state(sites, ldim, randstate)`: draw an
`ldim**sites × ldim**sites` matrix `mat`, form
`rho = conj(mat.T).dot(mat)`, divide by `trace(rho)` and reshape to
`(ldim,) * 2 * sites` (reshape keeps the row-major data). -/
def random_state (sites ldim : Nat) (randstate : Option RandState)
    (npRandom : RandState) : Tensor :=
  ⟨List.replicate (2 * sites) ldim,
   matToData (ldim ^ sites)
     (fun i j => rsRho sites ldim randstate npRandom i j
        / matTrace (ldim ^ sites) (rsRho sites ldim randstate npRandom))⟩

/-- The `ldim` argument of `_generate`: a scalar or a tuple of local
dimensions (`tuple(ldim) if hasattr(ldim, '__iter__') else (ldim,)`). -/
inductive LDimSpec where
  | scalar (d : Nat)
  | tuple (ds : List Nat)
deriving DecidableEq, Repr

/-- Tuple-expansion of the local-dimension argument. -/
def LDimSpec.normalize : LDimSpec → List Nat
  | .scalar d => [d]
  | .tuple ds => ds

/-- Modelled from the spec: the external `MPArray` type of the tensor-train
module (`mpnum.mparray`, not part of this file) is, for our purposes, the
ordered list of local tensors handed to its constructor. -/
structure MPArray where
  ltens : List Tensor
deriving DecidableEq, Repr

/-- Draw `count` tensors in sequence from a stateful generator, threading
the state left to right (Python's evaluation order of the list
comprehension in `_generate`). -/
def genSeq {S : Type} (count : Nat) (step : S → Tensor × S) (s : S) :
    List Tensor × S :=
  match count with
  | 0 => ([], s)
  | Nat.succ c =>
    let p := step s
    let q := genSeq c step p.2
    (p.1 :: q.1, q.2)

/-- `_generate(sites, ldim, bdim, func)`: assert `sites > 1`, normalize
`ldim`, build the boundary and middle local tensors by calling `func` on
each shape (threading the generator state in evaluation order), and pass
the list to the `MPArray` constructor.  The failed assertion is an
`Except.error`. -/
def _generate {S : Type} (sites : Nat) (ldim : LDimSpec) (bdim : Nat)
    (func : List Nat → S → Tensor × S) (s : S) :
    Except String (MPArray × S) :=
  if sites > 1 then
    let ld := ldim.normalize
    let pl := func ([1] ++ ld ++ [bdim]) s
    let pm := genSeq (sites - 2) (func ([bdim] ++ ld ++ [bdim])) pl.2
    let pr := func ([bdim] ++ ld ++ [1]) pm.2
    Except.ok (⟨[pl.1] ++ pm.1 ++ [pr.1]⟩, pr.2)
  else
    Except.error ("Cannot generate MPA with sites " ++ toString sites ++ " < 2")

/-- `random_mpa(sites, ldim, bdim, randstate)`: `_generate` with
`ft.partial(_zrandn, randstate=randstate)` as generator; the optional
source is resolved against the ambient global source once and threaded
through the successive draws. -/
def random_mpa (sites : Nat) (ldim : LDimSpec) (bdim : Nat)
    (randstate : Option RandState) (npRandom : RandState) :
    Except String (MPArray × RandState) :=
  _generate sites ldim bdim zrandnFrom (randstate.getD npRandom)

/-- `zero(sites, ldim, bdim)`: `_generate` with `np.zeros` (stateless) as
the generator function. -/
def zero (sites : Nat) (ldim : LDimSpec) (bdim : Nat) :
    Except String MPArray :=
  (_generate sites ldim bdim (fun sh (u : Unit) => (np.zeros sh, u)) ()).map
    Prod.fst

/-- Modelled from the spec: `MPArray.from_kron` packages a sequence of
independent per-site tensors into an MPA with trivial (size-1) bond
dimensions; each local tensor is the factor reshaped with a size-1 bond
leg on both sides (the flat data is unchanged). -/
def MPArray.from_kron (factors : List Tensor) : MPArray :=
  ⟨factors.map (fun t => ⟨[1] ++ t.shape ++ [1], t.data⟩)⟩

/-- `eye(sites, ldim)`: hand `sites` copies of `np.eye(ldim)` to
`MPArray.from_kron`. -/
def eye (sites ldim : Nat) : MPArray :=
  MPArray.from_kron (List.replicate sites (np.eye ldim))

/-! ## Basic lemmas about the embedded operations -/

theorem zrandnFrom_shape (shape : List Nat) (rs : RandState) :
    ((zrandnFrom shape rs).1).shape = shape := rfl

theorem zrandnFrom_state (shape : List Nat) (rs : RandState) :
    (zrandnFrom shape rs).2.stream = rs.stream ∧
    (zrandnFrom shape rs).2.pos = rs.pos + 2 * shape.prod := by
  refine ⟨rfl, ?_⟩
  show rs.pos + shape.prod + shape.prod = rs.pos + 2 * shape.prod
  ring

theorem np_zeros_shape (shape : List Nat) : (np.zeros shape).shape = shape := rfl

theorem getD_map_range (n k : Nat) (f : Nat → Cx) (hk : k < n) :
    ((List.range n).map f).getD k 0 = f k := by
  simp [List.getD_eq_getElem?_getD, List.getElem?_map, List.getElem?_range, hk]

theorem genSeq_length {S : Type} (count : Nat) (step : S → Tensor × S) (s : S) :
    (genSeq count step s).1.length = count := by
  induction count generalizing s with
  | zero => rfl
  | succ c ih => simp [genSeq, ih]

theorem genSeq_shapes {S : Type} (count : Nat) (step : S → Tensor × S) (s : S)
    (sh : List Nat) (hstep : ∀ st, ((step st).1).shape = sh) :
    (genSeq count step s).1.map Tensor.shape = List.replicate count sh := by
  induction count generalizing s with
  | zero => rfl
  | succ c ih => simp [genSeq, ih, hstep, List.replicate_succ]

theorem genSeq_mem {S : Type} (count : Nat) (step : S → Tensor × S) (s : S)
    (t : Tensor) (ht : t ∈ (genSeq count step s).1) : ∃ st, t = (step st).1 := by
  induction count generalizing s with
  | zero => simp [genSeq] at ht
  | succ c ih =>
    simp only [genSeq, List.mem_cons] at ht
    rcases ht with h | h
    · exact ⟨s, h⟩
    · exact ih _ h

/-- Shared specification of `_generate` on valid input: the result is `ok`,
holds exactly `sites` local tensors, their shapes form the bond chain
`1 – bdim – … – bdim – 1` with the tuple-expanded physical dimensions on
every site, the first tensor is the generator's output on the left
boundary shape, and every tensor is an output of the generator on its own
shape. -/
theorem generate_spec {S : Type} (sites : Nat) (ldim : LDimSpec) (bdim : Nat)
    (func : List Nat → S → Tensor × S) (s : S)
    (hs : 1 < sites) (hf : ∀ sh st, ((func sh st).1).shape = sh) :
    ∃ mpa s',
      _generate sites ldim bdim func s = Except.ok (mpa, s') ∧
      mpa.ltens.length = sites ∧
      mpa.ltens.map Tensor.shape =
        [[1] ++ ldim.normalize ++ [bdim]]
          ++ List.replicate (sites - 2) ([bdim] ++ ldim.normalize ++ [bdim])
          ++ [[bdim] ++ ldim.normalize ++ [1]] ∧
      mpa.ltens.head? = some ((func ([1] ++ ldim.normalize ++ [bdim]) s).1) ∧
      ∀ t ∈ mpa.ltens, ∃ st, t = (func t.shape st).1 := by
  have hpos : sites > 1 := hs
  refine ⟨⟨[(func ([1] ++ ldim.normalize ++ [bdim]) s).1]
      ++ (genSeq (sites - 2) (func ([bdim] ++ ldim.normalize ++ [bdim]))
            ((func ([1] ++ ldim.normalize ++ [bdim]) s).2)).1
      ++ [(func ([bdim] ++ ldim.normalize ++ [1])
            ((genSeq (sites - 2) (func ([bdim] ++ ldim.normalize ++ [bdim]))
              ((func ([1] ++ ldim.normalize ++ [bdim]) s).2)).2)).1]⟩,
    (func ([bdim] ++ ldim.normalize ++ [1])
      ((genSeq (sites - 2) (func ([bdim] ++ ldim.normalize ++ [bdim]))
        ((func ([1] ++ ldim.normalize ++ [bdim]) s).2)).2)).2,
    ?_, ?_, ?_, ?_, ?_⟩
  · simp only [_generate]
    rw [if_pos hpos]
  · simp only [List.length_append, List.length_cons, List.length_nil, genSeq_length]
    omega
  · simp only [List.map_append, List.map_cons, List.map_nil, hf,
      genSeq_shapes _ _ _ _ (fun st => hf _ st)]
  · simp
  · intro t ht
    simp only [List.mem_append, List.mem_cons, List.mem_singleton,
      List.not_mem_nil, or_false] at ht
    rcases ht with (h | h) | h
    · exact ⟨s, by rw [h, hf]⟩
    · obtain ⟨st, hst⟩ := genSeq_mem _ _ _ _ h
      exact ⟨st, by rw [hst, hf]⟩
    · refine ⟨(genSeq (sites - 2) (func ([bdim] ++ ldim.normalize ++ [bdim]))
          ((func ([1] ++ ldim.normalize ++ [bdim]) s).2)).2, ?_⟩
      rw [h, hf]

/-! ## Claim theorems: the MPA assembler and its clients -/

/-- C1: for every `sites > 1`, local-dimension spec (scalar or tuple,
normalized to a tuple), bond dimension and generator function that
honours the requested shape, `_generate` returns the `MPArray` built from
exactly `sites` local tensors, in order, whose shapes are
`(1,) + ldim + (bdim,)`, then `sites - 2` copies of
`(bdim,) + ldim + (bdim,)`, then `(bdim,) + ldim + (1,)` (the physical
dimensions are the same on every site), each tensor being an output of
the generator function called on that shape. -/
theorem generate_builds_tensor_chain {S : Type} (sites : Nat) (ldim : LDimSpec)
    (bdim : Nat) (func : List Nat → S → Tensor × S) (s : S)
    (hs : 1 < sites) (hf : ∀ sh st, ((func sh st).1).shape = sh) :
    ∃ mpa s',
      _generate sites ldim bdim func s = Except.ok (mpa, s') ∧
      mpa.ltens.length = sites ∧
      mpa.ltens.map Tensor.shape =
        [[1] ++ ldim.normalize ++ [bdim]]
          ++ List.replicate (sites - 2) ([bdim] ++ ldim.normalize ++ [bdim])
          ++ [[bdim] ++ ldim.normalize ++ [1]] ∧
      mpa.ltens.head? = some ((func ([1] ++ ldim.normalize ++ [bdim]) s).1) ∧
      ∀ t ∈ mpa.ltens, ∃ st, t = (func t.shape st).1 :=
  generate_spec sites ldim bdim func s hs hf

theorem generate_builds_tensor_chain_witness :
    (1 : Nat) < 3 ∧
    (∀ (sh : List Nat) (st : Unit),
      (((fun sh (u : Unit) => (np.zeros sh, u)) sh st).1).shape = sh) ∧
    ∃ mpa s',
      _generate 3 (.tuple [2, 3]) 4 (fun sh (u : Unit) => (np.zeros sh, u)) ()
          = Except.ok (mpa, s') ∧
      mpa.ltens.length = 3 ∧
      mpa.ltens.map Tensor.shape =
        [[1] ++ (LDimSpec.tuple [2, 3]).normalize ++ [4]]
          ++ List.replicate (3 - 2) ([4] ++ (LDimSpec.tuple [2, 3]).normalize ++ [4])
          ++ [[4] ++ (LDimSpec.tuple [2, 3]).normalize ++ [1]] ∧
      mpa.ltens.head? = some (((fun sh (u : Unit) => (np.zeros sh, u))
          ([1] ++ (LDimSpec.tuple [2, 3]).normalize ++ [4]) ()).1) ∧
      ∀ t ∈ mpa.ltens, ∃ st : Unit,
        t = ((fun sh (u : Unit) => (np.zeros sh, u)) t.shape st).1 :=
  ⟨by decide, fun _ _ => rfl,
    generate_builds_tensor_chain 3 (.tuple [2, 3]) 4
      (fun sh (u : Unit) => (np.zeros sh, u)) () (by decide) (fun _ _ => rfl)⟩

/-- C2: for every `sites ≤ 1` (in particular 1 and 0), `_generate` fails
with the assertion error before invoking the generator function (the
result does not depend on the generator or its state), and `random_mpa`
and `zero`, which delegate to it, fail with the same error. -/
theorem generate_rejects_sites_le_one {S : Type} (sites : Nat) (ldim : LDimSpec)
    (bdim : Nat) (func : List Nat → S → Tensor × S) (s : S)
    (ors : Option RandState) (g : RandState) (h : sites ≤ 1) :
    _generate sites ldim bdim func s
      = Except.error ("Cannot generate MPA with sites " ++ toString sites ++ " < 2")
    ∧ random_mpa sites ldim bdim ors g
      = Except.error ("Cannot generate MPA with sites " ++ toString sites ++ " < 2")
    ∧ zero sites ldim bdim
      = Except.error ("Cannot generate MPA with sites " ++ toString sites ++ " < 2") := by
  have hns : ¬ sites > 1 := by omega
  refine ⟨?_, ?_, ?_⟩ <;>
    simp [_generate, random_mpa, zero, hns, Except.map]

theorem generate_rejects_sites_le_one_witness :
    ((1 : Nat) ≤ 1 ∧
      _generate 1 (.scalar 2) 3 (fun sh (u : Unit) => (np.zeros sh, u)) ()
        = Except.error ("Cannot generate MPA with sites " ++ toString 1 ++ " < 2") ∧
      random_mpa 1 (.scalar 2) 3 (some ⟨fun _ => 1, 0⟩) ⟨fun _ => 0, 0⟩
        = Except.error ("Cannot generate MPA with sites " ++ toString 1 ++ " < 2") ∧
      zero 1 (.scalar 2) 3
        = Except.error ("Cannot generate MPA with sites " ++ toString 1 ++ " < 2")) ∧
    ((0 : Nat) ≤ 1 ∧
      _generate 0 (.scalar 2) 3 (fun sh (u : Unit) => (np.zeros sh, u)) ()
        = Except.error ("Cannot generate MPA with sites " ++ toString 0 ++ " < 2")) :=
  ⟨⟨by decide,
    (generate_rejects_sites_le_one 1 (.scalar 2) 3 _ ()
      (some ⟨fun _ => 1, 0⟩) ⟨fun _ => 0, 0⟩ (by decide)).1,
    (generate_rejects_sites_le_one 1 (.scalar 2) 3
      (fun sh (u : Unit) => (np.zeros sh, u)) ()
      (some ⟨fun _ => 1, 0⟩) ⟨fun _ => 0, 0⟩ (by decide)).2.1,
    (generate_rejects_sites_le_one 1 (.scalar 2) 3
      (fun sh (u : Unit) => (np.zeros sh, u)) ()
      (some ⟨fun _ => 1, 0⟩) ⟨fun _ => 0, 0⟩ (by decide)).2.2⟩,
   ⟨by decide,
    (generate_rejects_sites_le_one 0 (.scalar 2) 3
      (fun sh (u : Unit) => (np.zeros sh, u)) ()
      (some ⟨fun _ => 1, 0⟩) ⟨fun _ => 0, 0⟩ (by decide)).1⟩⟩

/-- C5: `zero(sites, ldim, bdim)` yields an MPA whose every local tensor
is the all-zero tensor of its shape, with exactly the same sequence of
local-tensor shapes as `random_mpa(sites, ldim, bdim)`: the bond chain
keeps bond dimension `bdim` (1 at the boundaries) and is not simplified
to bond dimension 0. -/
theorem zero_structure_matches_random_mpa (sites : Nat) (ld : LDimSpec)
    (bdim : Nat) (ors : Option RandState) (g : RandState) (hs : 1 < sites) :
    ∃ zm rm rs',
      zero sites ld bdim = Except.ok zm
      ∧ random_mpa sites ld bdim ors g = Except.ok (rm, rs')
      ∧ zm.ltens.map Tensor.shape = rm.ltens.map Tensor.shape
      ∧ zm.ltens.map Tensor.shape =
          [[1] ++ ld.normalize ++ [bdim]]
            ++ List.replicate (sites - 2) ([bdim] ++ ld.normalize ++ [bdim])
            ++ [[bdim] ++ ld.normalize ++ [1]]
      ∧ ∀ t ∈ zm.ltens, t = np.zeros t.shape := by
  obtain ⟨zm0, s0, hz, _, hzsh, _, hzmem⟩ :=
    generate_spec sites ld bdim (fun sh (u : Unit) => (np.zeros sh, u)) ()
      hs (fun _ _ => rfl)
  obtain ⟨rm0, s1, hr, _, hrsh, _, _⟩ :=
    generate_spec sites ld bdim zrandnFrom (ors.getD g) hs (fun _ _ => rfl)
  refine ⟨zm0, rm0, s1, ?_, hr, ?_, hzsh, ?_⟩
  · show (_generate sites ld bdim _ ()).map Prod.fst = Except.ok zm0
    rw [hz]
    rfl
  · rw [hzsh, hrsh]
  · intro t ht
    obtain ⟨st, hst⟩ := hzmem t ht
    simpa using hst

theorem zero_structure_matches_random_mpa_witness :
    (1 : Nat) < 3 ∧
    ∃ zm rm rs',
      zero 3 (.scalar 2) 2 = Except.ok zm
      ∧ random_mpa 3 (.scalar 2) 2 (some ⟨fun _ => 1, 0⟩) ⟨fun _ => 0, 0⟩
          = Except.ok (rm, rs')
      ∧ zm.ltens.map Tensor.shape = rm.ltens.map Tensor.shape
      ∧ zm.ltens.map Tensor.shape =
          [[1] ++ (LDimSpec.scalar 2).normalize ++ [2]]
            ++ List.replicate (3 - 2) ([2] ++ (LDimSpec.scalar 2).normalize ++ [2])
            ++ [[2] ++ (LDimSpec.scalar 2).normalize ++ [1]]
      ∧ ∀ t ∈ zm.ltens, t = np.zeros t.shape :=
  ⟨by decide,
    zero_structure_matches_random_mpa 3 (.scalar 2) 2
      (some ⟨fun _ => 1, 0⟩) ⟨fun _ => 0, 0⟩ (by decide)⟩

/-- C7: `random_op` returns exactly the raw complex Gaussian draw — no
normalization is applied — of shape `(ldim, ldim) * sites`, i.e.
`2 * sites` copies of `ldim`; in particular `random_op(3, 2)` has shape
`(2, 2, 2, 2, 2, 2)`. -/
theorem random_op_is_unnormalized_draw (sites ldim : Nat)
    (ors : Option RandState) (g : RandState) :
    random_op sites ldim ors g = (_zrandn (List.replicate (2 * sites) ldim) ors g).1
    ∧ (random_op sites ldim ors g).shape = List.replicate (2 * sites) ldim
    ∧ (random_op 3 2 ors g).shape = [2, 2, 2, 2, 2, 2] :=
  ⟨rfl, rfl, rfl⟩

/-- C9: `eye` imposes no lower bound on the site count: `eye 1 ldim`
succeeds and returns a one-site identity MPA, in contrast to
`random_mpa` and `zero`, which reject `sites = 1` with an assertion
error. -/
theorem eye_accepts_one_site (d : Nat) (ld : LDimSpec) (bdim : Nat)
    (ors : Option RandState) (g : RandState) :
    (eye 1 d).ltens.length = 1
    ∧ (eye 1 d).ltens = [⟨[1, d, d, 1], (np.eye d).data⟩]
    ∧ (∃ e, random_mpa 1 ld bdim ors g = Except.error e)
    ∧ (∃ e, zero 1 ld bdim = Except.error e) :=
  ⟨rfl, rfl, ⟨_, rfl⟩, ⟨_, rfl⟩⟩

/-- C10: the factories are deterministic given their random source:
`_zrandn` with `randstate=None` draws from the ambient global source;
one `_zrandn` call consumes exactly two standard-normal array draws
(the stream is unchanged and the cursor advances by `2 * shape.prod`);
and each factory's output depends only on its arguments and the resolved
source state — it is unchanged under a different ambient global source
when a source is supplied, and running with `None` equals running on the
global source's state. -/
theorem factories_deterministic (sites ldim : Nat) (ld : LDimSpec) (bdim : Nat)
    (shape : List Nat) (rs g g' : RandState) :
    _zrandn shape none g = zrandnFrom shape g
    ∧ _zrandn shape (some rs) g = _zrandn shape (some rs) g'
    ∧ (zrandnFrom shape rs).2.stream = rs.stream
    ∧ (zrandnFrom shape rs).2.pos = rs.pos + 2 * shape.prod
    ∧ random_vec sites ldim (some rs) g = random_vec sites ldim (some rs) g'
    ∧ random_op sites ldim (some rs) g = random_op sites ldim (some rs) g'
    ∧ random_state sites ldim (some rs) g = random_state sites ldim (some rs) g'
    ∧ random_mpa sites ld bdim (some rs) g = random_mpa sites ld bdim (some rs) g'
    ∧ random_vec sites ldim none g = random_vec sites ldim (some g) g'
    ∧ random_op sites ldim none g = random_op sites ldim (some g) g'
    ∧ random_state sites ldim none g = random_state sites ldim (some g) g'
    ∧ random_mpa sites ld bdim none g = random_mpa sites ld bdim (some g) g' :=
  ⟨rfl, rfl, rfl, (zrandnFrom_state shape rs).2, rfl, rfl, rfl, rfl,
    rfl, rfl, rfl, rfl⟩

/-! ## Claim theorems: random_vec -/

/-- C3: for `sites ≥ 1` and `ldim ≥ 1`, `random_vec` returns the raw
complex Gaussian draw of shape `(ldim,) * sites` divided by its Euclidean
norm (represented exactly as the pair of the raw draw and the square of
the normalizing divisor); provided the draw is non-zero, the squared norm
of the result is exactly 1, hence within 1e-6 of 1. -/
theorem random_vec_normalized (sites ldim : Nat) (ors : Option RandState)
    (g : RandState) (_h1 : 1 ≤ sites) (_h2 : 1 ≤ ldim)
    (hnz : ((_zrandn (List.replicate sites ldim) ors g).1).sumNormSq ≠ 0) :
    (random_vec sites ldim ors g).shape = List.replicate sites ldim
    ∧ (random_vec sites ldim ors g).raw
        = (_zrandn (List.replicate sites ldim) ors g).1
    ∧ (random_vec sites ldim ors g).divSq
        = ((_zrandn (List.replicate sites ldim) ors g).1).sumNormSq
    ∧ (random_vec sites ldim ors g).normSq = 1
    ∧ |(random_vec sites ldim ors g).normSq - 1| ≤ 1 / 1000000 := by
  have heq : (random_vec sites ldim ors g).normSq = 1 := by
    show ((_zrandn (List.replicate sites ldim) ors g).1).sumNormSq
        / ((_zrandn (List.replicate sites ldim) ors g).1).sumNormSq = 1
    exact div_self hnz
  refine ⟨rfl, rfl, rfl, heq, ?_⟩
  rw [heq]
  norm_num

theorem random_vec_normalized_witness :
    (1 : Nat) ≤ 2 ∧
    ((_zrandn (List.replicate 2 2) (some ⟨fun _ => 1, 0⟩)
        ⟨fun _ => 0, 0⟩).1).sumNormSq ≠ 0 ∧
    ((random_vec 2 2 (some ⟨fun _ => 1, 0⟩) ⟨fun _ => 0, 0⟩).shape
        = List.replicate 2 2
      ∧ (random_vec 2 2 (some ⟨fun _ => 1, 0⟩) ⟨fun _ => 0, 0⟩).raw
          = (_zrandn (List.replicate 2 2) (some ⟨fun _ => 1, 0⟩) ⟨fun _ => 0, 0⟩).1
      ∧ (random_vec 2 2 (some ⟨fun _ => 1, 0⟩) ⟨fun _ => 0, 0⟩).divSq
          = ((_zrandn (List.replicate 2 2) (some ⟨fun _ => 1, 0⟩)
              ⟨fun _ => 0, 0⟩).1).sumNormSq
      ∧ (random_vec 2 2 (some ⟨fun _ => 1, 0⟩) ⟨fun _ => 0, 0⟩).normSq = 1
      ∧ |(random_vec 2 2 (some ⟨fun _ => 1, 0⟩) ⟨fun _ => 0, 0⟩).normSq - 1|
          ≤ 1 / 1000000) :=
  ⟨by decide,
    by norm_num [_zrandn, zrandnFrom, RandState.randn, Tensor.sumNormSq,
      Cx.normSq, List.range_succ],
    random_vec_normalized 2 2 (some ⟨fun _ => 1, 0⟩) ⟨fun _ => 0, 0⟩
      (by decide) (by decide)
      (by norm_num [_zrandn, zrandnFrom, RandState.randn, Tensor.sumNormSq,
        Cx.normSq, List.range_succ])⟩

/-! ## Kronecker-chain semantics and the identity MPA -/

theorem getD_replicate' {α : Type} (n k : Nat) (a d : α) (hk : k < n) :
    (List.replicate n a).getD k d = a := by
  simp [List.getD_eq_getElem?_getD, List.getElem?_replicate, hk]

/-- Entry `(i, j)` of `np.eye d` (row-major data). -/
theorem np_eye_entry (d i j : Nat) (hi : i < d) (hj : j < d) :
    (np.eye d).data.getD (i * d + j) 0 = if i = j then (1 : Cx) else 0 := by
  have hd : 0 < d := Nat.lt_of_le_of_lt (Nat.zero_le i) hi
  have hlt : i * d + j < d * d := by
    calc i * d + j < i * d + d := by omega
      _ = (i + 1) * d := by ring
      _ ≤ d * d := Nat.mul_le_mul_right d (Nat.succ_le_of_lt hi)
  show ((List.range (d * d)).map
      (fun k => if k / d = k % d then (1 : Cx) else 0)).getD (i * d + j) 0 = _
  rw [getD_map_range _ _ _ hlt]
  have h1 : (i * d + j) / d = i := by
    rw [mul_comm i d, Nat.mul_add_div hd, Nat.div_eq_of_lt hj, Nat.add_zero]
  have h2 : (i * d + j) % d = j := by
    rw [mul_comm i d, Nat.mul_add_mod, Nat.mod_eq_of_lt hj]
  rw [h1, h2]

/-- Modelled from the spec: entry `(i, j)` of the per-site factor stored in
a Kronecker-chain local tensor (`d × d` row-major physical data). -/
def siteMat (d : Nat) (t : Tensor) (i j : Nat) : Cx := t.data.getD (i * d + j) 0

/-- Modelled from the spec: the operator represented by an MPA in
Kronecker-chain form (the tensor product of its per-site matrices) applied
to a state vector with one physical index per site: contract every site's
matrix against the matching index. -/
def kronApply (sites d : Nat) (A : MPArray)
    (v : (Fin sites → Fin d) → Cx) : (Fin sites → Fin d) → Cx :=
  fun i => ∑ j : Fin sites → Fin d,
    (∏ s : Fin sites, siteMat d (A.ltens.getD s.val (np.zeros [])) (i s) (j s))
      * v j

/-- C6: `eye(sites, ldim)` hands exactly `sites` copies of the
`ldim × ldim` identity matrix to the Kronecker-chain constructor
`MPArray.from_kron` (each local tensor being the identity with trivial
bonds `[1, ldim, ldim, 1]`, not produced by the general assembler
`_generate`), and the resulting MPA acts as the identity operator:
contracting it against any state vector reproduces that vector. -/
theorem eye_is_identity_mpa (sites ldim : Nat)
    (v : (Fin sites → Fin ldim) → Cx) :
    eye sites ldim = MPArray.from_kron (List.replicate sites (np.eye ldim))
    ∧ (eye sites ldim).ltens
        = List.replicate sites ⟨[1, ldim, ldim, 1], (np.eye ldim).data⟩
    ∧ kronApply sites ldim (eye sites ldim) v = v := by
  have hltens : (eye sites ldim).ltens
      = List.replicate sites ⟨[1, ldim, ldim, 1], (np.eye ldim).data⟩ := by
    show (List.replicate sites (np.eye ldim)).map _ = _
    rw [List.map_replicate]
    rfl
  refine ⟨rfl, hltens, ?_⟩
  funext i
  show (∑ j : Fin sites → Fin ldim,
      (∏ s : Fin sites,
        siteMat ldim ((eye sites ldim).ltens.getD s.val (np.zeros [])) (i s) (j s))
        * v j) = v i
  have hloc : ∀ s : Fin sites,
      (eye sites ldim).ltens.getD s.val (np.zeros [])
        = ⟨[1, ldim, ldim, 1], (np.eye ldim).data⟩ := by
    intro s
    rw [hltens]
    exact getD_replicate' sites s.val _ _ s.isLt
  have hsite : ∀ (j : Fin sites → Fin ldim) (s : Fin sites),
      siteMat ldim ((eye sites ldim).ltens.getD s.val (np.zeros []))
          (i s) (j s) = if i s = j s then (1 : Cx) else 0 := by
    intro j s
    rw [hloc s]
    show (np.eye ldim).data.getD ((i s).val * ldim + (j s).val) 0 = _
    have := np_eye_entry ldim (i s).val (j s).val (i s).isLt (j s).isLt
    rw [this]
    by_cases h : i s = j s
    · simp [h]
    · have : (i s).val ≠ (j s).val := fun hv => h (Fin.ext hv)
      simp [h, this]
  calc (∑ j : Fin sites → Fin ldim,
        (∏ s : Fin sites,
          siteMat ldim ((eye sites ldim).ltens.getD s.val (np.zeros []))
            (i s) (j s)) * v j)
      = ∑ j : Fin sites → Fin ldim,
          (if i = j then (1 : Cx) else 0) * v j := by
        refine Finset.sum_congr rfl (fun j _ => ?_)
        rw [Finset.prod_congr rfl (fun s _ => hsite j s), Finset.prod_boole]
        by_cases h : i = j
        · rw [if_pos (fun s _ => by rw [h]), if_pos h]
        · have hn : ¬ ∀ s, i s = j s := fun hall => h (funext hall)
          rw [if_neg (fun hall => hn (fun s => hall s (Finset.mem_univ s))),
            if_neg h]
    _ = v i := by simp

/-! ## Quadratic-form lemmas for random_state -/

/-- `M.dot(x)` for an `n × n` matrix and a vector. -/
def matMulVec (n : Nat) (M : Nat → Nat → Cx) (x : Nat → Cx) : Nat → Cx :=
  fun i => ∑ j ∈ Finset.range n, M i j * x j

/-- The sesquilinear form `xᴴ M x` of an `n × n` matrix. -/
def quadForm (n : Nat) (M : Nat → Nat → Cx) (x : Nat → Cx) : Cx :=
  ∑ i ∈ Finset.range n, ∑ j ∈ Finset.range n, Cx.conj (x i) * M i j * x j

theorem Cx.conj_sum {ι : Type} (s : Finset ι) (f : ι → Cx) :
    Cx.conj (∑ i ∈ s, f i) = ∑ i ∈ s, Cx.conj (f i) := by
  induction s using Finset.cons_induction with
  | empty => simp
  | cons a s ha ih => rw [Finset.sum_cons, Finset.sum_cons, Cx.conj_add, ih]

theorem Cx.re_sum {ι : Type} (s : Finset ι) (f : ι → Cx) :
    (∑ i ∈ s, f i).re = ∑ i ∈ s, (f i).re := by
  induction s using Finset.cons_induction with
  | empty => rfl
  | cons a s ha ih => rw [Finset.sum_cons, Finset.sum_cons, Cx.add_re, ih]

theorem Cx.im_sum {ι : Type} (s : Finset ι) (f : ι → Cx) :
    (∑ i ∈ s, f i).im = ∑ i ∈ s, (f i).im := by
  induction s using Finset.cons_induction with
  | empty => rfl
  | cons a s ha ih => rw [Finset.sum_cons, Finset.sum_cons, Cx.add_im, ih]

theorem Cx.conj_inv (b : Cx) : Cx.conj b⁻¹ = (Cx.conj b)⁻¹ := by
  have hn : Cx.normSq (Cx.conj b) = Cx.normSq b := by
    simp [Cx.normSq]
  apply Cx.ext_iff.mpr
  constructor
  · show (b⁻¹).re = (Cx.conj b).re / Cx.normSq (Cx.conj b)
    rw [hn]
    rfl
  · show -(b⁻¹).im = -(Cx.conj b).im / Cx.normSq (Cx.conj b)
    rw [hn]
    show -(-b.im / Cx.normSq b) = -(-b.im) / Cx.normSq b
    rw [neg_div, neg_neg, neg_neg]

theorem Cx.conj_div (a b : Cx) : Cx.conj (a / b) = Cx.conj a / Cx.conj b := by
  show Cx.conj (a * b⁻¹) = Cx.conj a * (Cx.conj b)⁻¹
  rw [Cx.conj_mul, Cx.conj_inv]

/-- Division by a real scalar acts componentwise. -/
theorem Cx.div_real (a : Cx) (T : ℚ) :
    a / (⟨T, 0⟩ : Cx) = ⟨a.re / T, a.im / T⟩ := by
  by_cases hT : T = 0
  · subst hT
    apply Cx.ext_iff.mpr
    constructor
    · show a.re * ((0 : ℚ) / _) - a.im * (-(0 : ℚ) / _) = a.re / 0
      simp
    · show a.re * (-(0 : ℚ) / _) + a.im * ((0 : ℚ) / _) = a.im / 0
      simp
  · apply Cx.ext_iff.mpr
    constructor
    · show a.re * (T / Cx.normSq ⟨T, 0⟩) - a.im * (-(0:ℚ) / Cx.normSq ⟨T, 0⟩)
          = a.re / T
      simp only [Cx.normSq]
      field_simp
    · show a.re * (-(0:ℚ) / Cx.normSq ⟨T, 0⟩) + a.im * (T / Cx.normSq ⟨T, 0⟩)
          = a.im / T
      simp only [Cx.normSq]
      field_simp

/-- Row-major index arithmetic for an `n × n` matrix. -/
theorem rowmajor_index (n i j : Nat) (hi : i < n) (hj : j < n) :
    i * n + j < n * n ∧ (i * n + j) / n = i ∧ (i * n + j) % n = j := by
  have hn : 0 < n := Nat.lt_of_le_of_lt (Nat.zero_le i) hi
  refine ⟨?_, ?_, ?_⟩
  · calc i * n + j < i * n + n := by omega
      _ = (i + 1) * n := by ring
      _ ≤ n * n := Nat.mul_le_mul_right n (Nat.succ_le_of_lt hi)
  · rw [mul_comm i n, Nat.mul_add_div hn, Nat.div_eq_of_lt hj, Nat.add_zero]
  · rw [mul_comm i n, Nat.mul_add_mod, Nat.mod_eq_of_lt hj]

/-- Reading back a flattened matrix recovers its entries (numpy reshape
round-trip in global index ordering). -/
theorem matOf_matToData (n : Nat) (sh : List Nat) (M : Nat → Nat → Cx)
    (i j : Nat) (hi : i < n) (hj : j < n) :
    matOf n ⟨sh, matToData n M⟩ i j = M i j := by
  obtain ⟨hlt, hdiv, hmod⟩ := rowmajor_index n i j hi hj
  show (matToData n M).getD (i * n + j) 0 = M i j
  rw [matToData, getD_map_range _ _ _ hlt, hdiv, hmod]

/-- The trace of `Aᴴ A` is the (real, nonnegative) sum of the squared
moduli of the entries of `A`. -/
theorem trace_conjTrans_mul (n : Nat) (A : Nat → Nat → Cx) :
    matTrace n (matMul n (conjTrans A) A)
      = ⟨∑ i ∈ Finset.range n, ∑ k ∈ Finset.range n, Cx.normSq (A k i), 0⟩ := by
  unfold matTrace matMul conjTrans
  simp only [Cx.conj_mul_self]
  apply Cx.ext_iff.mpr
  constructor
  · rw [Cx.re_sum]
    refine Finset.sum_congr rfl fun i _ => ?_
    rw [Cx.re_sum]
  · rw [Cx.im_sum]
    refine Finset.sum_eq_zero fun i _ => ?_
    rw [Cx.im_sum]
    exact Finset.sum_eq_zero fun k _ => rfl

/-- `xᴴ (Aᴴ A) x = ∑ₖ conj((A x)ₖ) (A x)ₖ`. -/
theorem quadForm_conjTrans_mul (n : Nat) (A : Nat → Nat → Cx) (x : Nat → Cx) :
    quadForm n (matMul n (conjTrans A) A) x
      = ∑ k ∈ Finset.range n,
          Cx.conj (matMulVec n A x k) * matMulVec n A x k := by
  unfold quadForm matMul conjTrans matMulVec
  calc
    ∑ i ∈ Finset.range n, ∑ j ∈ Finset.range n,
        Cx.conj (x i) * (∑ k ∈ Finset.range n, Cx.conj (A k i) * A k j) * x j
      = ∑ i ∈ Finset.range n, ∑ j ∈ Finset.range n, ∑ k ∈ Finset.range n,
          (Cx.conj (x i) * Cx.conj (A k i)) * (A k j * x j) := by
        refine Finset.sum_congr rfl fun i _ => Finset.sum_congr rfl fun j _ => ?_
        rw [Finset.mul_sum, Finset.sum_mul]
        exact Finset.sum_congr rfl fun k _ => by ring
    _ = ∑ i ∈ Finset.range n, ∑ k ∈ Finset.range n, ∑ j ∈ Finset.range n,
          (Cx.conj (x i) * Cx.conj (A k i)) * (A k j * x j) := by
        exact Finset.sum_congr rfl fun i _ => Finset.sum_comm
    _ = ∑ k ∈ Finset.range n, ∑ i ∈ Finset.range n, ∑ j ∈ Finset.range n,
          (Cx.conj (x i) * Cx.conj (A k i)) * (A k j * x j) := Finset.sum_comm
    _ = ∑ k ∈ Finset.range n,
          (∑ i ∈ Finset.range n, Cx.conj (x i) * Cx.conj (A k i))
            * (∑ j ∈ Finset.range n, A k j * x j) := by
        refine Finset.sum_congr rfl fun k _ => ?_
        rw [Finset.sum_mul_sum]
    _ = ∑ k ∈ Finset.range n,
          Cx.conj (∑ i ∈ Finset.range n, A k i * x i)
            * (∑ j ∈ Finset.range n, A k j * x j) := by
        refine Finset.sum_congr rfl fun k _ => ?_
        congr 1
        rw [Cx.conj_sum]
        exact Finset.sum_congr rfl fun i _ => by rw [Cx.conj_mul]; ring

/-- The quadratic form of `Aᴴ A` is real and nonnegative. -/
theorem quadForm_conjTrans_mul_nonneg (n : Nat) (A : Nat → Nat → Cx)
    (x : Nat → Cx) :
    0 ≤ (quadForm n (matMul n (conjTrans A) A) x).re
    ∧ (quadForm n (matMul n (conjTrans A) A) x).im = 0 := by
  rw [quadForm_conjTrans_mul]
  simp only [Cx.conj_mul_self]
  constructor
  · rw [Cx.re_sum]
    exact Finset.sum_nonneg fun k _ => Cx.normSq_nonneg _
  · rw [Cx.im_sum]
    exact Finset.sum_eq_zero fun k _ => rfl

theorem quadForm_div (n : Nat) (M : Nat → Nat → Cx) (x : Nat → Cx) (t : Cx) :
    quadForm n (fun i j => M i j / t) x = quadForm n M x / t := by
  unfold quadForm
  rw [Finset.sum_div]
  refine Finset.sum_congr rfl fun i _ => ?_
  rw [Finset.sum_div]
  exact Finset.sum_congr rfl fun j _ => by ring

theorem matTrace_div (n : Nat) (M : Nat → Nat → Cx) (t : Cx) :
    matTrace n (fun i j => M i j / t) = matTrace n M / t := by
  unfold matTrace
  rw [Finset.sum_div]

theorem sum_conj_mulVec (n : Nat) (M : Nat → Nat → Cx) (x : Nat → Cx) :
    ∑ i ∈ Finset.range n, Cx.conj (x i) * matMulVec n M x i
      = quadForm n M x := by
  unfold matMulVec quadForm
  refine Finset.sum_congr rfl fun i _ => ?_
  rw [Finset.mul_sum]
  exact Finset.sum_congr rfl fun j _ => by ring

theorem sum_conj_mul_self (n : Nat) (x : Nat → Cx) :
    ∑ i ∈ Finset.range n, Cx.conj (x i) * x i
      = ⟨∑ i ∈ Finset.range n, Cx.normSq (x i), 0⟩ := by
  simp only [Cx.conj_mul_self]
  apply Cx.ext_iff.mpr
  constructor
  · rw [Cx.re_sum]
  · rw [Cx.im_sum]
    exact Finset.sum_eq_zero fun k _ => rfl

theorem Cx.conj_conj (a : Cx) : Cx.conj (Cx.conj a) = a := by
  apply Cx.ext_iff.mpr
  constructor
  · rfl
  · simp

/-- C8: the array returned by `random_state`, reinterpreted as an
`ldim**sites × ldim**sites` matrix, is exactly Hermitian: entry `(i, j)`
equals the conjugate of entry `(j, i)`, because it is
`conj(mat.T).dot(mat)` scaled by a real number.  (The spec promises only
positive semidefiniteness and unit trace.) -/
theorem random_state_hermitian (sites ldim : Nat) (ors : Option RandState)
    (g : RandState) (i j : Nat)
    (hi : i < ldim ^ sites) (hj : j < ldim ^ sites) :
    matOf (ldim ^ sites) (random_state sites ldim ors g) i j
      = Cx.conj (matOf (ldim ^ sites) (random_state sites ldim ors g) j i) := by
  have him : (matTrace (ldim ^ sites) (rsRho sites ldim ors g)).im = 0 := by
    unfold rsRho
    rw [trace_conjTrans_mul]
  have hconjt : Cx.conj (matTrace (ldim ^ sites) (rsRho sites ldim ors g))
      = matTrace (ldim ^ sites) (rsRho sites ldim ors g) := by
    apply Cx.ext_iff.mpr
    refine ⟨rfl, ?_⟩
    show -(matTrace (ldim ^ sites) (rsRho sites ldim ors g)).im
        = (matTrace (ldim ^ sites) (rsRho sites ldim ors g)).im
    rw [him]
    norm_num
  have hsym : rsRho sites ldim ors g i j
      = Cx.conj (rsRho sites ldim ors g j i) := by
    unfold rsRho matMul conjTrans
    rw [Cx.conj_sum]
    refine Finset.sum_congr rfl fun k _ => ?_
    rw [Cx.conj_mul, Cx.conj_conj]
    ring
  have hread : ∀ (a b : Nat), a < ldim ^ sites → b < ldim ^ sites →
      matOf (ldim ^ sites) (random_state sites ldim ors g) a b
        = rsRho sites ldim ors g a b
            / matTrace (ldim ^ sites) (rsRho sites ldim ors g) := by
    intro a b ha hb
    unfold random_state
    exact matOf_matToData _ _ _ a b ha hb
  rw [hread i j hi hj, hread j i hj hi, Cx.conj_div, hconjt, hsym]

theorem random_state_hermitian_witness :
    (0 < 2 ^ 1 ∧ 1 < 2 ^ 1) ∧
    matOf (2 ^ 1) (random_state 1 2 (some ⟨fun k => (k : ℚ), 0⟩)
        ⟨fun _ => 0, 0⟩) 0 1
      = Cx.conj (matOf (2 ^ 1) (random_state 1 2 (some ⟨fun k => (k : ℚ), 0⟩)
          ⟨fun _ => 0, 0⟩) 1 0) :=
  ⟨⟨by decide, by decide⟩,
    random_state_hermitian 1 2 (some ⟨fun k => (k : ℚ), 0⟩) ⟨fun _ => 0, 0⟩
      0 1 (by decide) (by decide)⟩

/-- C4: `random_state` draws an `ldim**sites`-dimensional square matrix,
forms its conjugate-transpose product, divides by the trace and reshapes
to `(ldim, ldim)^sites`; provided the trace of the conjugate-transpose
product is non-zero, the output — read back as an
`ldim**sites × ldim**sites` matrix in global index ordering — has trace
exactly 1 (hence within 1e-6 of 1), a real nonnegative quadratic form,
and every eigenvalue real and ≥ -1e-6 (indeed ≥ 0). -/
theorem random_state_trace_one_psd (sites ldim : Nat) (ors : Option RandState)
    (g : RandState)
    (ht : matTrace (ldim ^ sites) (rsRho sites ldim ors g) ≠ 0) :
    (random_state sites ldim ors g).shape = List.replicate (2 * sites) ldim
    ∧ matTrace (ldim ^ sites)
        (matOf (ldim ^ sites) (random_state sites ldim ors g)) = 1
    ∧ |(matTrace (ldim ^ sites)
        (matOf (ldim ^ sites) (random_state sites ldim ors g))).re - 1|
          ≤ 1 / 1000000
    ∧ (∀ x : Nat → Cx,
        0 ≤ (quadForm (ldim ^ sites)
              (matOf (ldim ^ sites) (random_state sites ldim ors g)) x).re
        ∧ (quadForm (ldim ^ sites)
              (matOf (ldim ^ sites) (random_state sites ldim ors g)) x).im = 0)
    ∧ ∀ (x : Nat → Cx) (μ : Cx),
        (∃ i, i < ldim ^ sites ∧ x i ≠ 0) →
        (∀ i, i < ldim ^ sites →
          matMulVec (ldim ^ sites)
              (matOf (ldim ^ sites) (random_state sites ldim ors g)) x i
            = μ * x i) →
        μ.im = 0 ∧ -(1 / 1000000) ≤ μ.re := by
  have hread : ∀ (a b : Nat), a < ldim ^ sites → b < ldim ^ sites →
      matOf (ldim ^ sites) (random_state sites ldim ors g) a b
        = rsRho sites ldim ors g a b
            / matTrace (ldim ^ sites) (rsRho sites ldim ors g) := by
    intro a b ha hb
    unfold random_state
    exact matOf_matToData _ _ _ a b ha hb
  have him : (matTrace (ldim ^ sites) (rsRho sites ldim ors g)).im = 0 := by
    unfold rsRho
    rw [trace_conjTrans_mul]
  have hre0 : 0 ≤ (matTrace (ldim ^ sites) (rsRho sites ldim ors g)).re := by
    unfold rsRho
    rw [trace_conjTrans_mul]
    exact Finset.sum_nonneg fun i _ =>
      Finset.sum_nonneg fun k _ => Cx.normSq_nonneg _
  have hrne : (matTrace (ldim ^ sites) (rsRho sites ldim ors g)).re ≠ 0 := by
    intro h0
    exact ht (Cx.ext_iff.mpr ⟨h0, him⟩)
  have hrpos : 0 < (matTrace (ldim ^ sites) (rsRho sites ldim ors g)).re :=
    lt_of_le_of_ne hre0 (Ne.symm hrne)
  have hdivc : ∀ q : Cx,
      q / matTrace (ldim ^ sites) (rsRho sites ldim ors g)
        = ⟨q.re / (matTrace (ldim ^ sites) (rsRho sites ldim ors g)).re,
           q.im / (matTrace (ldim ^ sites) (rsRho sites ldim ors g)).re⟩ := by
    intro q
    conv_lhs =>
      rw [show matTrace (ldim ^ sites) (rsRho sites ldim ors g)
          = ⟨(matTrace (ldim ^ sites) (rsRho sites ldim ors g)).re, 0⟩ from
        Cx.ext_iff.mpr ⟨rfl, him⟩]
    exact Cx.div_real q _
  have htr : matTrace (ldim ^ sites)
      (matOf (ldim ^ sites) (random_state sites ldim ors g)) = 1 := by
    unfold matTrace
    rw [Finset.sum_congr rfl (fun i hi =>
      hread i i (Finset.mem_range.mp hi) (Finset.mem_range.mp hi))]
    rw [← Finset.sum_div]
    have hsum : (∑ i ∈ Finset.range (ldim ^ sites), rsRho sites ldim ors g i i)
        = matTrace (ldim ^ sites) (rsRho sites ldim ors g) := rfl
    rw [hsum]
    exact div_self ht
  have hquad : ∀ x : Nat → Cx,
      quadForm (ldim ^ sites)
          (matOf (ldim ^ sites) (random_state sites ldim ors g)) x
        = quadForm (ldim ^ sites) (rsRho sites ldim ors g) x
            / matTrace (ldim ^ sites) (rsRho sites ldim ors g) := by
    intro x
    have hcong : quadForm (ldim ^ sites)
          (matOf (ldim ^ sites) (random_state sites ldim ors g)) x
        = quadForm (ldim ^ sites)
            (fun a b => rsRho sites ldim ors g a b
              / matTrace (ldim ^ sites) (rsRho sites ldim ors g)) x := by
      unfold quadForm
      refine Finset.sum_congr rfl fun i hi => Finset.sum_congr rfl fun j hj => ?_
      rw [hread i j (Finset.mem_range.mp hi) (Finset.mem_range.mp hj)]
    rw [hcong, quadForm_div]
  have hq0 : ∀ x : Nat → Cx,
      0 ≤ (quadForm (ldim ^ sites) (rsRho sites ldim ors g) x).re
      ∧ (quadForm (ldim ^ sites) (rsRho sites ldim ors g) x).im = 0 := by
    intro x
    unfold rsRho
    exact quadForm_conjTrans_mul_nonneg _ _ _
  have hpsd : ∀ x : Nat → Cx,
      0 ≤ (quadForm (ldim ^ sites)
            (matOf (ldim ^ sites) (random_state sites ldim ors g)) x).re
      ∧ (quadForm (ldim ^ sites)
            (matOf (ldim ^ sites) (random_state sites ldim ors g)) x).im
          = 0 := by
    intro x
    rw [hquad x, hdivc]
    obtain ⟨h1, h2⟩ := hq0 x
    constructor
    · exact div_nonneg h1 (le_of_lt hrpos)
    · show (quadForm (ldim ^ sites) (rsRho sites ldim ors g) x).im
          / (matTrace (ldim ^ sites) (rsRho sites ldim ors g)).re = 0
      rw [h2, zero_div]
  refine ⟨rfl, htr, ?_, hpsd, ?_⟩
  · rw [htr]
    show |(1 : ℚ) - 1| ≤ 1 / 1000000
    norm_num
  · rintro x μ ⟨i0, hi0, hx0⟩ heig
    have hsum1 : ∑ i ∈ Finset.range (ldim ^ sites),
        Cx.conj (x i) * matMulVec (ldim ^ sites)
          (matOf (ldim ^ sites) (random_state sites ldim ors g)) x i
        = quadForm (ldim ^ sites)
            (matOf (ldim ^ sites) (random_state sites ldim ors g)) x :=
      sum_conj_mulVec _ _ _
    have hsum2 : ∑ i ∈ Finset.range (ldim ^ sites),
        Cx.conj (x i) * matMulVec (ldim ^ sites)
          (matOf (ldim ^ sites) (random_state sites ldim ors g)) x i
        = μ * ⟨∑ i ∈ Finset.range (ldim ^ sites), Cx.normSq (x i), 0⟩ := by
      calc ∑ i ∈ Finset.range (ldim ^ sites),
            Cx.conj (x i) * matMulVec (ldim ^ sites)
              (matOf (ldim ^ sites) (random_state sites ldim ors g)) x i
          = ∑ i ∈ Finset.range (ldim ^ sites),
              Cx.conj (x i) * (μ * x i) :=
            Finset.sum_congr rfl fun i hi => by
              rw [heig i (Finset.mem_range.mp hi)]
        _ = μ * ∑ i ∈ Finset.range (ldim ^ sites), Cx.conj (x i) * x i := by
            rw [Finset.mul_sum]
            exact Finset.sum_congr rfl fun i _ => by ring
        _ = μ * ⟨∑ i ∈ Finset.range (ldim ^ sites), Cx.normSq (x i), 0⟩ := by
            rw [sum_conj_mul_self]
    have hμq : μ * ⟨∑ i ∈ Finset.range (ldim ^ sites), Cx.normSq (x i), 0⟩
        = quadForm (ldim ^ sites)
            (matOf (ldim ^ sites) (random_state sites ldim ors g)) x :=
      hsum2.symm.trans hsum1
    have hNpos : 0 < ∑ i ∈ Finset.range (ldim ^ sites), Cx.normSq (x i) := by
      have hle : Cx.normSq (x i0)
          ≤ ∑ i ∈ Finset.range (ldim ^ sites), Cx.normSq (x i) :=
        Finset.single_le_sum (fun i _ => Cx.normSq_nonneg (x i))
          (Finset.mem_range.mpr hi0)
      have hgt : 0 < Cx.normSq (x i0) :=
        lt_of_le_of_ne (Cx.normSq_nonneg _)
          (fun h => hx0 (Cx.normSq_eq_zero_iff.mp h.symm))
      linarith
    obtain ⟨hqre, hqim⟩ := hpsd x
    have hre' : μ.re * (∑ i ∈ Finset.range (ldim ^ sites), Cx.normSq (x i))
        = (quadForm (ldim ^ sites)
            (matOf (ldim ^ sites) (random_state sites ldim ors g)) x).re := by
      have := congrArg Cx.re hμq
      simpa using this
    have him' : μ.im * (∑ i ∈ Finset.range (ldim ^ sites), Cx.normSq (x i))
        = 0 := by
      have := congrArg Cx.im hμq
      simpa [hqim] using this
    have hμim : μ.im = 0 := by
      rcases mul_eq_zero.mp him' with h | h
      · exact h
      · exact absurd h (ne_of_gt hNpos)
    have hμre : 0 ≤ μ.re := by nlinarith [hre', hqre, hNpos]
    exact ⟨hμim, by linarith⟩

theorem random_state_trace_one_psd_witness :
    matTrace (2 ^ 1) (rsRho 1 2 (some ⟨fun k => (k : ℚ), 0⟩)
        ⟨fun _ => 0, 0⟩) ≠ 0 ∧
    (random_state 1 2 (some ⟨fun k => (k : ℚ), 0⟩) ⟨fun _ => 0, 0⟩).shape
        = List.replicate (2 * 1) 2 ∧
    matTrace (2 ^ 1) (matOf (2 ^ 1)
        (random_state 1 2 (some ⟨fun k => (k : ℚ), 0⟩) ⟨fun _ => 0, 0⟩)) = 1 :=
  ⟨by norm_num [matTrace, rsRho, rsDraw, matMul, conjTrans, matOf, _zrandn,
      zrandnFrom, RandState.randn, Cx.conj, Cx.normSq, Cx.ext_iff,
      Finset.sum_range_succ, List.range_succ],
   (random_state_trace_one_psd 1 2 (some ⟨fun k => (k : ℚ), 0⟩)
      ⟨fun _ => 0, 0⟩
      (by norm_num [matTrace, rsRho, rsDraw, matMul, conjTrans, matOf, _zrandn,
        zrandnFrom, RandState.randn, Cx.conj, Cx.normSq, Cx.ext_iff,
        Finset.sum_range_succ, List.range_succ])).1,
   (random_state_trace_one_psd 1 2 (some ⟨fun k => (k : ℚ), 0⟩)
      ⟨fun _ => 0, 0⟩
      (by norm_num [matTrace, rsRho, rsDraw, matMul, conjTrans, matOf, _zrandn,
        zrandnFrom, RandState.randn, Cx.conj, Cx.normSq, Cx.ext_iff,
        Finset.sum_range_succ, List.range_succ])).2.1⟩
